import Mathlib

/-!
Verification of the calendar schedule layout engine, the auto-scroll
viewport heuristic and the day classification of `Calendar.tsx` from the
fire-tablet-dashboard repository.

The layout engine (`getEventsForSchedule`, Calendar.tsx lines 337-397)
works on timed events whose `start`/`end` ISO strings have been evaluated
to millisecond timestamps via `new Date(s).getTime()`; those instants are
modelled as `Int`.  JavaScript `Array.prototype.sort` with the comparator
`(a, b) => new Date(a.start).getTime() - new Date(b.start).getTime()` is a
stable ascending sort by start instant; it is modelled by
`List.insertionSort` with the non-strict relation `a.start ≤ b.start`,
which places an element before the existing elements with the same key it
was inserted into — i.e. the unique stable sort by `start`.
-/

/-- The `CalendarEvent` record of Calendar.tsx (lines 9-19), with the two
instant fields already evaluated to millisecond timestamps. -/
structure CalendarEvent where
  id : String
  title : String
  start : Int
  «end» : Int
  allDay : Bool
  location : Option String
  description : Option String
  colorId : Option String
  calendarIndex : Option Int
deriving DecidableEq, Repr

/-- The `PositionedEvent` record of Calendar.tsx (lines 46-49): a
`CalendarEvent` annotated with its layout column and width divisor.
`column` is an `Int` because it is produced by `Array.prototype.findIndex`,
which can yield `-1`. -/
structure PositionedEvent extends CalendarEvent where
  column : Int
  totalColumns : Nat
deriving DecidableEq, Repr

/-- The overlap test of the placement loop (Calendar.tsx lines 351-356):
the candidate event `ev` is tested against an `existing` member of a
column.  Touching endpoints are explicitly reported as non-overlapping. -/
def hasOverlap (ev existing : CalendarEvent) : Bool :=
  if ev.«end» == existing.start || ev.start == existing.«end» then false
  else ev.start < existing.«end» && ev.«end» > existing.start

/-- One step of the placement loop (Calendar.tsx lines 348-367): scan the
columns left to right and push the event into the first column none of
whose members overlaps it; if every column has an overlapping member,
append a fresh column holding only this event. -/
def placeEvent (ev : CalendarEvent) : List (List CalendarEvent) → List (List CalendarEvent)
  | [] => [[ev]]
  | col :: rest =>
    if col.any (fun existing => hasOverlap ev existing) then col :: placeEvent ev rest
    else (col ++ [ev]) :: rest

/-- The full placement pass (the first `forEach` of `getEventsForSchedule`,
Calendar.tsx lines 344-368), fed the events in sorted order. -/
def buildColumns (events : List CalendarEvent) : List (List CalendarEvent) :=
  events.foldl (fun cols ev => placeEvent ev cols) []

/-- The stable ascending sort by start instant performed by
`dayEvents.sort((a, b) => new Date(a.start).getTime() - new Date(b.start).getTime())`
(Calendar.tsx line 339). -/
def sortByStart (events : List CalendarEvent) : List CalendarEvent :=
  List.insertionSort (fun a b => a.start ≤ b.start) events

/-- The columns the layout engine builds for a given input sequence. -/
def layoutColumns (events : List CalendarEvent) : List (List CalendarEvent) :=
  buildColumns (sortByStart events)

/-- `columns.findIndex(col => col.includes(event))` (Calendar.tsx line
371): index of the first column containing the event, `-1` when absent. -/
def columnIndexOf (ev : CalendarEvent) : List (List CalendarEvent) → Int
  | [] => -1
  | col :: rest =>
    if col.contains ev then 0
    else
      let r := columnIndexOf ev rest
      if r = -1 then -1 else r + 1

/-- The overlap test of the width-computation loop (Calendar.tsx lines
377-383): identical interval test, but an event never counts against
another event carrying the same `id`. -/
def overlapsOther (ev other : CalendarEvent) : Bool :=
  if other.id == ev.id then false
  else if ev.«end» == other.start || ev.start == other.«end» then false
  else ev.start < other.«end» && ev.«end» > other.start

/-- `overlappingColumns` for one event (Calendar.tsx lines 375-385): the
number of columns containing at least one other event (by `id`) whose
interval overlaps this event's interval. -/
def overlappingColumns (columns : List (List CalendarEvent)) (ev : CalendarEvent) : Nat :=
  columns.countP (fun col => col.any (fun other => overlapsOther ev other))

/-- The `PositionedEvent` built for one event in the second `forEach`
(Calendar.tsx lines 370-394). -/
def positionEvent (columns : List (List CalendarEvent)) (ev : CalendarEvent) : PositionedEvent :=
  let columnIndex := columnIndexOf ev columns
  let overlapping := overlappingColumns columns ev
  { toCalendarEvent := ev
    column := if overlapping > 0 then columnIndex else 0
    totalColumns := if overlapping > 0 then overlapping + 1 else 1 }

/-- `getEventsForSchedule` (Calendar.tsx lines 337-397): sort the day's
events by start instant, place them greedily into columns, then annotate
every event with its column index and width divisor. -/
def getEventsForSchedule (scheduleEvents : List CalendarEvent) : List PositionedEvent :=
  let dayEvents := sortByStart scheduleEvents
  let columns := buildColumns dayEvents
  dayEvents.map (fun ev => positionEvent columns ev)

/-- The overlap relation named by the specification:
`A.start < B.end && B.start < A.end`. -/
def Overlaps (A B : CalendarEvent) : Prop :=
  A.start < B.«end» ∧ B.start < A.«end»

instance : DecidableRel Overlaps := fun A B => by
  unfold Overlaps; exact inferInstance

theorem overlaps_symm {A B : CalendarEvent} (h : Overlaps A B) : Overlaps B A :=
  ⟨h.2, h.1⟩

theorem overlaps_symmetric : Symmetric Overlaps :=
  fun _ _ h => overlaps_symm h

theorem not_overlaps_symmetric : Symmetric (fun A B => ¬ Overlaps A B) :=
  fun _ _ h hov => h (overlaps_symm hov)

/-- The boolean placement test agrees with the specification's overlap
relation: the explicit touching-endpoint branch of the code is redundant,
because touching intervals already fail the strict comparisons. -/
theorem hasOverlap_iff (A B : CalendarEvent) : hasOverlap A B = true ↔ Overlaps A B := by
  unfold hasOverlap Overlaps
  rcases eq_or_ne A.«end» B.start with h1 | h1 <;>
    rcases eq_or_ne A.start B.«end» with h2 | h2 <;>
      simp [h1, h2] <;> omega

/-- When the ids differ, the width-computation overlap test agrees with
the placement overlap test. -/
theorem overlapsOther_eq_hasOverlap {A B : CalendarEvent} (h : B.id ≠ A.id) :
    overlapsOther A B = hasOverlap A B := by
  unfold overlapsOther hasOverlap
  simp [h]

/-!
The auto-scroll viewport heuristic (the `useEffect` of Calendar.tsx lines
142-220).  For the single day being viewed, an event's vertical position
is `getHours() * 60 + getMinutes()` pixels (`pixelsPerMinute = 1.0`), and
the `eventEnd.getTime() > currentTimeMs` upcoming test coincides, for
events of the day being viewed, with comparing minutes since midnight.
Events are therefore modelled by their start/end minutes since midnight;
pixel quantities are rationals (`clientHeight / 2` need not be whole).
-/

/-- A timed event of the viewed day as the auto-scroll effect sees it:
start and end in minutes since local midnight. -/
structure TimedEvent where
  startMinutes : ℚ
  endMinutes : ℚ
deriving DecidableEq, Repr

/-- `upcomingEvents` (Calendar.tsx lines 166-170): the day's events whose
end is strictly after the current instant. -/
def upcomingEvents (todayEvents : List TimedEvent) (nowMinutes : ℚ) : List TimedEvent :=
  todayEvents.filter (fun e => nowMinutes < e.endMinutes)

/-- The scroll offset computed by the auto-scroll effect (Calendar.tsx
lines 152-213): `none` models the early `return` when the day has no
timed events (no scroll is issued at all). -/
def autoScrollTarget (todayEvents : List TimedEvent) (nowMinutes : ℚ)
    (containerHeight contentHeight : ℚ) : Option ℚ :=
  if todayEvents = [] then none
  else
    let currentTimePosition : ℚ := nowMinutes
    match upcomingEvents todayEvents nowMinutes with
    | [] =>
      let s := max 0 (currentTimePosition - containerHeight / 2)
      some (min s (contentHeight - containerHeight))
    | firstUpcomingEvent :: rest =>
      let firstEventPosition : ℚ := firstUpcomingEvent.startMinutes
      let lastUpcomingEvent := rest.getLastD firstUpcomingEvent
      let lastEventPosition : ℚ := lastUpcomingEvent.endMinutes
      let earliestDesiredPosition := max 0 (firstEventPosition - 120)
      let centeredPosition := max 0 (currentTimePosition - containerHeight / 2)
      let scrollPosition := max earliestDesiredPosition centeredPosition
      let visibleBottom := scrollPosition + containerHeight
      let scrollPosition :=
        if lastEventPosition > visibleBottom then
          max 0 (lastEventPosition - containerHeight + 60)
        else scrollPosition
      let maxScrollToKeepRedLineVisible := currentTimePosition - 100
      some (min scrollPosition maxScrollToKeepRedLineVisible)

/-!
Day classification (`isEventOnDay`, Calendar.tsx lines 255-265).  The
target day is identified by its `yyyy-MM-dd` string (the code computes it
with `format(targetDay, 'yyyy-MM-dd')`).  For timed events the code runs
`isSameDay(parseISO(event.start), targetDay)`, i.e. converts the start
string to an instant and compares its calendar date in the viewer's local
timezone; that timezone-dependent conversion is modelled by an arbitrary
function `localDateOf` mapping an instant string to the `yyyy-MM-dd`
string of its local calendar date. -/

/-- A raw event as day classification sees it: the `start` field is still
a string — a `yyyy-MM-dd` date for all-day events, an ISO instant for
timed events. -/
structure RawCalendarEvent where
  id : String
  start : String
  allDay : Bool
deriving DecidableEq, Repr

/-- `isEventOnDay` (Calendar.tsx lines 255-265): all-day events compare
date strings directly; timed events compare through an instant conversion
(`localDateOf`, the viewer-timezone-dependent part). -/
def isEventOnDay (localDateOf : String → String) (event : RawCalendarEvent)
    (targetDayStr : String) : Bool :=
  if event.allDay then event.start == targetDayStr
  else localDateOf event.start == targetDayStr

/-- C5: For every pair of events A and B with `A.end == B.start`
(back-to-back), the layout engine's overlap test reports them as
non-overlapping in both test directions, so they are placeable in the same
column: placing B when a column already holds A puts B into that column,
and the whole engine run on the pair produces a single column. -/
theorem touching_events_share_column (A B : CalendarEvent) (h : A.«end» = B.start) :
    hasOverlap A B = false ∧ hasOverlap B A = false ∧
    placeEvent B [[A]] = [[A, B]] ∧ (layoutColumns [A, B]).length = 1 := by
  have hAB : hasOverlap A B = false := by simp [hasOverlap, h]
  have hBA : hasOverlap B A = false := by simp [hasOverlap, h]
  refine ⟨hAB, hBA, ?_, ?_⟩
  · simp [placeEvent, hBA]
  · unfold layoutColumns sortByStart buildColumns
    by_cases hle : A.start ≤ B.start
    · simp [List.insertionSort, List.orderedInsert, hle, placeEvent, hAB, hBA]
    · simp [List.insertionSort, List.orderedInsert, hle, placeEvent, hAB, hBA]

theorem touching_events_share_column_witness :
    (⟨"a", "A", 540, 600, false, none, none, none, none⟩ : CalendarEvent).«end» =
      (⟨"b", "B", 600, 660, false, none, none, none, none⟩ : CalendarEvent).start ∧
    (hasOverlap ⟨"a", "A", 540, 600, false, none, none, none, none⟩
        ⟨"b", "B", 600, 660, false, none, none, none, none⟩ = false ∧
      hasOverlap ⟨"b", "B", 600, 660, false, none, none, none, none⟩
        ⟨"a", "A", 540, 600, false, none, none, none, none⟩ = false ∧
      placeEvent ⟨"b", "B", 600, 660, false, none, none, none, none⟩
          [[⟨"a", "A", 540, 600, false, none, none, none, none⟩]] =
        [[⟨"a", "A", 540, 600, false, none, none, none, none⟩,
          ⟨"b", "B", 600, 660, false, none, none, none, none⟩]] ∧
      (layoutColumns [⟨"a", "A", 540, 600, false, none, none, none, none⟩,
          ⟨"b", "B", 600, 660, false, none, none, none, none⟩]).length = 1) :=
  ⟨by decide, touching_events_share_column _ _ (by decide)⟩

/-- C4 counterexample: the claim says a zero-duration event overlaps
nothing and shares a column with any event while contributing to no
event's `totalColumns`.  The code disagrees: the zero-duration event
`z = [630, 630]` lies strictly inside `w = [600, 660]`, the overlap test
reports `true` in both directions, the two events land in different
columns, and both get `totalColumns = 2`. -/
theorem zero_duration_overlap_counterexample :
    hasOverlap ⟨"z", "Z", 630, 630, false, none, none, none, none⟩
      ⟨"w", "W", 600, 660, false, none, none, none, none⟩ = true ∧
    hasOverlap ⟨"w", "W", 600, 660, false, none, none, none, none⟩
      ⟨"z", "Z", 630, 630, false, none, none, none, none⟩ = true ∧
    (getEventsForSchedule [⟨"w", "W", 600, 660, false, none, none, none, none⟩,
        ⟨"z", "Z", 630, 630, false, none, none, none, none⟩]).map
      (fun p => (p.id, p.column, p.totalColumns)) = [("w", 0, 2), ("z", 1, 2)] := by
  decide

/-- C4 amended: a zero-duration event E (`E.end == E.start`) is treated by
the overlap test (in both test directions) as overlapping another event B
exactly when E's instant lies strictly inside B's interval
(`B.start < E.start < B.end`); when its instant is at or outside B's
endpoints — in particular when it merely touches B — it overlaps
nothing. -/
theorem zero_duration_overlap_iff_strictly_inside (E B : CalendarEvent)
    (h : E.«end» = E.start) :
    (hasOverlap E B = true ↔ (B.start < E.start ∧ E.start < B.«end»)) ∧
    (hasOverlap B E = true ↔ (B.start < E.start ∧ E.start < B.«end»)) := by
  constructor
  · rw [hasOverlap_iff]
    unfold Overlaps
    rw [h]
    exact and_comm
  · rw [hasOverlap_iff]
    unfold Overlaps
    rw [h]

theorem zero_duration_overlap_iff_strictly_inside_witness :
    (⟨"z", "Z", 630, 630, false, none, none, none, none⟩ : CalendarEvent).«end» =
      (⟨"z", "Z", 630, 630, false, none, none, none, none⟩ : CalendarEvent).start ∧
    ((hasOverlap ⟨"z", "Z", 630, 630, false, none, none, none, none⟩
        ⟨"w", "W", 600, 660, false, none, none, none, none⟩ = true ↔
          ((600:Int) < 630 ∧ (630:Int) < 660)) ∧
      (hasOverlap ⟨"w", "W", 600, 660, false, none, none, none, none⟩
        ⟨"z", "Z", 630, 630, false, none, none, none, none⟩ = true ↔
          ((600:Int) < 630 ∧ (630:Int) < 660))) :=
  ⟨by decide, zero_duration_overlap_iff_strictly_inside _ _ (by decide)⟩

/-- C8: an all-day event is classified onto a target day by comparing its
calendar-date string against the target day's calendar-date string, and
the result does not depend on the instant-conversion function (the
viewer's UTC offset): the classification holds iff the strings are
exactly equal. -/
theorem allday_classified_by_date_string (f g : String → String)
    (event : RawCalendarEvent) (targetDayStr : String) (h : event.allDay = true) :
    (isEventOnDay f event targetDayStr = true ↔ event.start = targetDayStr) ∧
    isEventOnDay f event targetDayStr = isEventOnDay g event targetDayStr := by
  unfold isEventOnDay
  simp [h]

theorem allday_classified_by_date_string_witness :
    (⟨"x", "2024-03-10", true⟩ : RawCalendarEvent).allDay = true ∧
    ((isEventOnDay (fun s => s) ⟨"x", "2024-03-10", true⟩ "2024-03-10" = true ↔
        (⟨"x", "2024-03-10", true⟩ : RawCalendarEvent).start = "2024-03-10") ∧
      isEventOnDay (fun s => s) ⟨"x", "2024-03-10", true⟩ "2024-03-10" =
        isEventOnDay (fun _ => "1970-01-01") ⟨"x", "2024-03-10", true⟩ "2024-03-10") :=
  ⟨by decide, allday_classified_by_date_string (fun s => s) (fun _ => "1970-01-01") _ _ (by decide)⟩

/-- Unfolding of the auto-scroll computation in the active-day case (the
`else` branch of Calendar.tsx lines 179-213), for reasoning. -/
theorem autoScrollTarget_cons (todayEvents : List TimedEvent) (nowMinutes : ℚ)
    (containerHeight contentHeight : ℚ) (firstUpcomingEvent : TimedEvent)
    (rest : List TimedEvent) (hne : todayEvents ≠ [])
    (hcons : upcomingEvents todayEvents nowMinutes = firstUpcomingEvent :: rest) :
    autoScrollTarget todayEvents nowMinutes containerHeight contentHeight =
      some (min
        (if (rest.getLastD firstUpcomingEvent).endMinutes >
            max (max 0 (firstUpcomingEvent.startMinutes - 120))
              (max 0 (nowMinutes - containerHeight / 2)) + containerHeight
         then max 0 ((rest.getLastD firstUpcomingEvent).endMinutes - containerHeight + 60)
         else max (max 0 (firstUpcomingEvent.startMinutes - 120))
           (max 0 (nowMinutes - containerHeight / 2)))
        (nowMinutes - 100)) := by
  unfold autoScrollTarget
  rw [if_neg hne, hcons]

/-- C6: when the set of upcoming events (end strictly after the current
instant) is non-empty, the final scroll offset keeps the current-time
marker inside the viewport with at least the fixed 100 minutes-equivalent
margin above the bottom edge.  The marker's position inside the viewport
is `currentTimePosition - S`; the bound needs the container to be at
least 200 minutes-equivalent tall (the rendered schedule container is
520 px, i.e. 520 minutes-equivalent). -/
theorem autoscroll_marker_visible_with_upcoming (todayEvents : List TimedEvent)
    (nowMinutes : ℚ) (containerHeight contentHeight : ℚ) (S : ℚ)
    (hup : upcomingEvents todayEvents nowMinutes ≠ [])
    (hH : 200 ≤ containerHeight)
    (hS : autoScrollTarget todayEvents nowMinutes containerHeight contentHeight = some S) :
    100 ≤ (S + containerHeight) - nowMinutes ∧
    0 ≤ nowMinutes - S ∧ nowMinutes - S ≤ containerHeight := by
  have hne : todayEvents ≠ [] := by
    intro h
    apply hup
    simp [upcomingEvents, h]
  obtain ⟨firstUpcomingEvent, rest, hcons⟩ := List.exists_cons_of_ne_nil hup
  rw [autoScrollTarget_cons todayEvents nowMinutes containerHeight contentHeight
    firstUpcomingEvent rest hne hcons] at hS
  have hSval := Option.some_injective ℚ hS.symm
  set T : ℚ := nowMinutes
  set F : ℚ := firstUpcomingEvent.startMinutes
  set L : ℚ := (rest.getLastD firstUpcomingEvent).endMinutes
  set s1 : ℚ := max (max 0 (F - 120)) (max 0 (T - containerHeight / 2))
  have hs1 : T - containerHeight / 2 ≤ s1 :=
    le_trans (le_max_right _ _) (le_max_right _ _)
  set s2 : ℚ := if L > s1 + containerHeight
    then max 0 (L - containerHeight + 60) else s1
  have hs2 : s1 ≤ s2 := by
    by_cases hc : L > s1 + containerHeight
    · have : L - containerHeight + 60 ≤ max 0 (L - containerHeight + 60) := le_max_right _ _
      simp only [s2, if_pos hc]
      linarith
    · simp only [s2, if_neg hc]
      exact le_rfl
  have hSmin : S = min s2 (T - 100) := hSval
  rcases min_cases s2 (T - 100) with ⟨hmin, hle⟩ | ⟨hmin, hlt⟩
  · rw [hmin] at hSmin
    constructor
    · linarith
    · constructor <;> linarith
  · rw [hmin] at hSmin
    constructor
    · linarith
    · constructor <;> linarith

theorem autoscroll_marker_visible_with_upcoming_witness :
    upcomingEvents [⟨900, 930⟩, ⟨1320, 1350⟩] 840 ≠ [] ∧ (200 : ℚ) ≤ 520 ∧
    autoScrollTarget [⟨900, 930⟩, ⟨1320, 1350⟩] 840 520 1440 = some 740 ∧
    (100 ≤ ((740 : ℚ) + 520) - 840 ∧
      0 ≤ (840 : ℚ) - 740 ∧ (840 : ℚ) - 740 ≤ 520) :=
  ⟨by decide, by decide,
    by norm_num [autoScrollTarget, upcomingEvents, List.filter] <;> simp,
    autoscroll_marker_visible_with_upcoming [⟨900, 930⟩, ⟨1320, 1350⟩] 840 520 1440 740
      (by decide) (by decide)
      (by norm_num [autoScrollTarget, upcomingEvents, List.filter] <;> simp)⟩

/-- C7: when the day still has events but none is upcoming (every end is
at or before the current instant), the computed offset is exactly
`currentTimePosition - containerHeight / 2` clamped to
`[0, contentHeight - containerHeight]`; in particular (for the DOM
invariant `containerHeight ≤ contentHeight`) it is never negative and
never exceeds `contentHeight - containerHeight`. -/
theorem autoscroll_no_upcoming_centers_clamped (todayEvents : List TimedEvent)
    (nowMinutes : ℚ) (containerHeight contentHeight : ℚ)
    (hne : todayEvents ≠ [])
    (hdone : ∀ e ∈ todayEvents, e.endMinutes ≤ nowMinutes)
    (hfit : containerHeight ≤ contentHeight) :
    autoScrollTarget todayEvents nowMinutes containerHeight contentHeight =
      some (min (max 0 (nowMinutes - containerHeight / 2))
        (contentHeight - containerHeight)) ∧
    0 ≤ min (max 0 (nowMinutes - containerHeight / 2))
      (contentHeight - containerHeight) ∧
    min (max 0 (nowMinutes - containerHeight / 2))
      (contentHeight - containerHeight) ≤ contentHeight - containerHeight := by
  have hupc : upcomingEvents todayEvents nowMinutes = [] := by
    unfold upcomingEvents
    rw [List.filter_eq_nil_iff]
    intro e he
    simp only [decide_eq_true_eq, not_lt]
    exact hdone e he
  refine ⟨?_, ?_, min_le_right _ _⟩
  · unfold autoScrollTarget
    rw [if_neg hne, hupc]
  · have h0 : (0 : ℚ) ≤ max 0 (nowMinutes - containerHeight / 2) := le_max_left _ _
    have h1 : (0 : ℚ) ≤ contentHeight - containerHeight := by linarith
    exact le_min h0 h1

theorem autoscroll_no_upcoming_centers_clamped_witness :
    ([⟨540, 600⟩] : List TimedEvent) ≠ [] ∧
    (∀ e ∈ ([⟨540, 600⟩] : List TimedEvent), e.endMinutes ≤ (1430 : ℚ)) ∧
    (520 : ℚ) ≤ 1440 ∧
    (autoScrollTarget [⟨540, 600⟩] 1430 520 1440 =
        some (min (max 0 ((1430 : ℚ) - 520 / 2)) (1440 - 520)) ∧
      0 ≤ min (max 0 ((1430 : ℚ) - 520 / 2)) (1440 - 520) ∧
      min (max 0 ((1430 : ℚ) - 520 / 2)) (1440 - 520) ≤ 1440 - 520) :=
  ⟨by decide, by decide, by decide,
    autoscroll_no_upcoming_centers_clamped [⟨540, 600⟩] 1430 520 1440
      (by decide) (by decide) (by decide)⟩

/-- Placement preserves the per-column no-overlap invariant: an event is
only pushed into a column after every member of that column failed the
overlap test against it. -/
theorem placeEvent_pairwise (ev : CalendarEvent) (cols : List (List CalendarEvent))
    (h : ∀ col ∈ cols, col.Pairwise (fun a b => ¬ Overlaps a b)) :
    ∀ col ∈ placeEvent ev cols, col.Pairwise (fun a b => ¬ Overlaps a b) := by
  induction cols with
  | nil =>
    intro col hcol
    simp only [placeEvent, List.mem_singleton] at hcol
    subst hcol
    simp
  | cons c rest ih =>
    intro col hcol
    cases hany : c.any (fun existing => hasOverlap ev existing) with
    | true =>
      simp only [placeEvent, hany, if_true] at hcol
      rcases List.mem_cons.mp hcol with hc | hc
      · exact hc ▸ h c (List.mem_cons_self c rest)
      · exact ih (fun col2 hcol2 => h col2 (List.mem_cons_of_mem c hcol2)) col hc
    | false =>
      simp only [placeEvent, hany, Bool.false_eq_true, if_false] at hcol
      rcases List.mem_cons.mp hcol with hc | hc
      · subst hc
        rw [List.pairwise_append]
        refine ⟨h c (List.mem_cons_self c rest), List.pairwise_singleton _ _, ?_⟩
        intro a ha b hb
        rw [List.mem_singleton] at hb
        intro hover
        have hfalse : hasOverlap ev a = false := by
          have h2 := List.any_eq_false.mp hany a ha
          simpa using h2
        have htrue : hasOverlap ev a = true :=
          (hasOverlap_iff ev a).mpr (overlaps_symm (hb ▸ hover))
        rw [hfalse] at htrue
        exact Bool.false_ne_true htrue
      · exact h col (List.mem_cons_of_mem c hc)

/-- The full placement pass preserves the per-column no-overlap
invariant. -/
theorem foldl_place_pairwise (l : List CalendarEvent) (cols : List (List CalendarEvent))
    (h : ∀ col ∈ cols, col.Pairwise (fun a b => ¬ Overlaps a b)) :
    ∀ col ∈ l.foldl (fun cs ev => placeEvent ev cs) cols,
      col.Pairwise (fun a b => ¬ Overlaps a b) := by
  induction l generalizing cols with
  | nil => simpa using h
  | cons e t ih => exact ih (placeEvent e cols) (placeEvent_pairwise e cols h)

/-- C1: for every input of timed events with `end >= start`, no two
distinct events placed in the same column overlap, where overlap is
`A.start < B.end ∧ B.start < A.end` (touching intervals do not
overlap). -/
theorem layout_no_overlap_in_column (events : List CalendarEvent)
    (htimed : ∀ e ∈ events, e.allDay = false)
    (hwf : ∀ e ∈ events, e.start ≤ e.«end») :
    ∀ col ∈ layoutColumns events,
      col.Pairwise (fun A B => ¬ (A.start < B.«end» ∧ B.start < A.«end»)) := by
  have h := foldl_place_pairwise (sortByStart events) [] (by simp)
  intro col hcol
  exact h col hcol

theorem layout_no_overlap_in_column_witness :
    (∀ e ∈ [(⟨"1", "E1", 540, 600, false, none, none, none, none⟩ : CalendarEvent),
        ⟨"2", "E2", 570, 585, false, none, none, none, none⟩,
        ⟨"3", "E3", 585, 660, false, none, none, none, none⟩], e.allDay = false) ∧
    (∀ e ∈ [(⟨"1", "E1", 540, 600, false, none, none, none, none⟩ : CalendarEvent),
        ⟨"2", "E2", 570, 585, false, none, none, none, none⟩,
        ⟨"3", "E3", 585, 660, false, none, none, none, none⟩], e.start ≤ e.«end») ∧
    ∀ col ∈ layoutColumns [(⟨"1", "E1", 540, 600, false, none, none, none, none⟩ : CalendarEvent),
        ⟨"2", "E2", 570, 585, false, none, none, none, none⟩,
        ⟨"3", "E3", 585, 660, false, none, none, none, none⟩],
      col.Pairwise (fun A B => ¬ (A.start < B.«end» ∧ B.start < A.«end»)) :=
  ⟨by decide, by decide,
    layout_no_overlap_in_column _ (by decide) (by decide)⟩

/-- One placement step only appends the new event to the multiset of
already placed events. -/
theorem placeEvent_flatten_perm (ev : CalendarEvent) (cols : List (List CalendarEvent)) :
    (placeEvent ev cols).flatten.Perm (cols.flatten ++ [ev]) := by
  induction cols with
  | nil => simp [placeEvent]
  | cons c rest ih =>
    cases hany : c.any (fun existing => hasOverlap ev existing) with
    | true =>
      simp only [placeEvent, hany, if_true, List.flatten_cons, List.append_assoc]
      exact ih.append_left c
    | false =>
      simp only [placeEvent, hany, Bool.false_eq_true, if_false, List.flatten_cons,
        List.append_assoc]
      exact (List.perm_append_comm).append_left c

/-- The placement pass as a whole is a permutation: every input event is
placed exactly once. -/
theorem foldl_place_flatten_perm (l : List CalendarEvent) (cols : List (List CalendarEvent)) :
    (l.foldl (fun cs ev => placeEvent ev cs) cols).flatten.Perm (cols.flatten ++ l) := by
  induction l generalizing cols with
  | nil => simp
  | cons e t ih =>
    have h1 := ih (placeEvent e cols)
    have h2 := (placeEvent_flatten_perm e cols).append_right t
    have h3 : (cols.flatten ++ [e]) ++ t = cols.flatten ++ (e :: t) := by
      simp
    exact h1.trans (h3 ▸ h2)

theorem buildColumns_flatten_perm (l : List CalendarEvent) :
    (buildColumns l).flatten.Perm l := by
  simpa using foldl_place_flatten_perm l []

theorem sortByStart_perm (l : List CalendarEvent) : (sortByStart l).Perm l :=
  List.perm_insertionSort _ l

/-- C3: the layout engine is total and complete — for any input satisfying
`end >= start` it produces exactly one `PositionedEvent` per input event
(the underlying events of the output are a permutation of the input, and
the lengths agree); the Lean embedding is a total function, so no failure
branch exists. -/
theorem layout_total_complete (events : List CalendarEvent)
    (hwf : ∀ e ∈ events, e.start ≤ e.«end») :
    (getEventsForSchedule events).length = events.length ∧
    ((getEventsForSchedule events).map (fun p => p.toCalendarEvent)).Perm events := by
  have hmap : ∀ (cols : List (List CalendarEvent)) (l : List CalendarEvent),
      (l.map (fun ev => positionEvent cols ev)).map (fun p => p.toCalendarEvent) = l := by
    intro cols l
    induction l with
    | nil => rfl
    | cons e t ih =>
      rw [List.map_cons, List.map_cons, ih]
      rfl
  have hmap2 : (getEventsForSchedule events).map (fun p => p.toCalendarEvent) =
      sortByStart events := by
    show ((sortByStart events).map
        (fun ev => positionEvent (buildColumns (sortByStart events)) ev)).map
      (fun p => p.toCalendarEvent) = sortByStart events
    exact hmap _ _
  constructor
  · show ((sortByStart events).map
        (fun ev => positionEvent (buildColumns (sortByStart events)) ev)).length =
      events.length
    rw [List.length_map]
    exact (sortByStart_perm events).length_eq
  · rw [hmap2]
    exact sortByStart_perm events

theorem layout_total_complete_witness :
    (∀ e ∈ [(⟨"1", "E1", 540, 600, false, none, none, none, none⟩ : CalendarEvent),
        ⟨"2", "E2", 570, 585, false, none, none, none, none⟩,
        ⟨"3", "E3", 585, 660, false, none, none, none, none⟩], e.start ≤ e.«end») ∧
    ((getEventsForSchedule [(⟨"1", "E1", 540, 600, false, none, none, none, none⟩ : CalendarEvent),
        ⟨"2", "E2", 570, 585, false, none, none, none, none⟩,
        ⟨"3", "E3", 585, 660, false, none, none, none, none⟩]).length = 3 ∧
      ((getEventsForSchedule [(⟨"1", "E1", 540, 600, false, none, none, none, none⟩ : CalendarEvent),
          ⟨"2", "E2", 570, 585, false, none, none, none, none⟩,
          ⟨"3", "E3", 585, 660, false, none, none, none, none⟩]).map
        (fun p => p.toCalendarEvent)).Perm
        [(⟨"1", "E1", 540, 600, false, none, none, none, none⟩ : CalendarEvent),
          ⟨"2", "E2", 570, 585, false, none, none, none, none⟩,
          ⟨"3", "E3", 585, 660, false, none, none, none, none⟩]) :=
  ⟨by decide, layout_total_complete _ (by decide)⟩

/-- A subpermutation of a pairwise-overlapping list is itself pairwise
overlapping. -/
theorem pairwise_overlaps_of_subperm {S L : List CalendarEvent}
    (hsub : S.Subperm L) (h : L.Pairwise Overlaps) : S.Pairwise Overlaps := by
  obtain ⟨S2, hperm, hsl⟩ := hsub
  exact (h.sublist hsl).perm hperm (fun hx => overlaps_symm hx)

/-- Counting core for C2: a pairwise-overlapping collection of events
drawn from the placed columns cannot exceed the number of columns,
because each column holds at most one of its members. -/
theorem pairwise_overlapping_le_columns (cols : List (List CalendarEvent))
    (hcols : ∀ c ∈ cols, c.Pairwise (fun a b => ¬ Overlaps a b)) :
    ∀ S : List CalendarEvent, S.Pairwise Overlaps → S.Subperm cols.flatten →
      S.length ≤ cols.length := by
  induction cols with
  | nil =>
    intro S _ hsub
    simp only [List.flatten_nil, List.subperm_nil] at hsub
    simp [hsub]
  | cons c rest ih =>
    intro S hpair hsub
    have hle : (S : Multiset CalendarEvent) ≤
        (c : Multiset CalendarEvent) + (rest.flatten : Multiset CalendarEvent) := by
      rw [Multiset.coe_add, Multiset.coe_le]
      simpa [List.flatten_cons] using hsub
    have hsplit : ((S : Multiset CalendarEvent) - (c : Multiset CalendarEvent)) +
        ((S : Multiset CalendarEvent) ∩ (c : Multiset CalendarEvent)) =
        (S : Multiset CalendarEvent) := Multiset.sub_add_inter _ _
    have hcard : Multiset.card ((S : Multiset CalendarEvent) - (c : Multiset CalendarEvent)) +
        Multiset.card ((S : Multiset CalendarEvent) ∩ (c : Multiset CalendarEvent)) =
        S.length := by
      rw [← Multiset.card_add, hsplit, Multiset.coe_card]
    have hm1 : Multiset.card ((S : Multiset CalendarEvent) ∩ (c : Multiset CalendarEvent)) ≤ 1 := by
      by_contra hgt
      push_neg at hgt
      obtain ⟨a, t1, ha⟩ : ∃ a t1,
          (S : Multiset CalendarEvent) ∩ (c : Multiset CalendarEvent) = a ::ₘ t1 := by
        rcases Multiset.card_pos_iff_exists_mem.mp
          (show 0 < Multiset.card ((S : Multiset CalendarEvent) ∩ (c : Multiset CalendarEvent))
            by omega) with ⟨a, haa⟩
        obtain ⟨t1, ht1⟩ := Multiset.exists_cons_of_mem haa
        exact ⟨a, t1, ht1⟩
      have ht1card : 0 < Multiset.card t1 := by
        have hc2 := congrArg Multiset.card ha
        rw [Multiset.card_cons] at hc2
        omega
      obtain ⟨b, t2, hb⟩ : ∃ b t2, t1 = b ::ₘ t2 := by
        rcases Multiset.card_pos_iff_exists_mem.mp ht1card with ⟨b, hbb⟩
        obtain ⟨t2, ht2⟩ := Multiset.exists_cons_of_mem hbb
        exact ⟨b, t2, ht2⟩
      have hmS : (S : Multiset CalendarEvent) ∩ (c : Multiset CalendarEvent) ≤
          (S : Multiset CalendarEvent) := Multiset.inter_le_left _ _
      have hmc : (S : Multiset CalendarEvent) ∩ (c : Multiset CalendarEvent) ≤
          (c : Multiset CalendarEvent) := Multiset.inter_le_right _ _
      have hcpair : c.Pairwise (fun a b => ¬ Overlaps a b) :=
        hcols c (List.mem_cons_self c rest)
      by_cases hab : a = b
      · subst hab
        have hcount : 2 ≤ Multiset.count a
            ((S : Multiset CalendarEvent) ∩ (c : Multiset CalendarEvent)) := by
          rw [ha, hb, Multiset.count_cons_self, Multiset.count_cons_self]
          omega
        have h2S : 2 ≤ List.count a S := by
          have h3 := Multiset.count_le_of_le a hmS
          rw [Multiset.coe_count] at h3
          omega
        have h2c : 2 ≤ List.count a c := by
          have h3 := Multiset.count_le_of_le a hmc
          rw [Multiset.coe_count] at h3
          omega
        have hdupS : [a, a].Sublist S :=
          List.duplicate_iff_sublist.mp (List.duplicate_iff_two_le_count.mpr h2S)
        have hdupc : [a, a].Sublist c :=
          List.duplicate_iff_sublist.mp (List.duplicate_iff_two_le_count.mpr h2c)
        have hov : Overlaps a a :=
          (List.pairwise_cons.mp (hpair.sublist hdupS)).1 a (List.mem_singleton_self a)
        have hnov : ¬ Overlaps a a :=
          (List.pairwise_cons.mp (hcpair.sublist hdupc)).1 a (List.mem_singleton_self a)
        exact hnov hov
      · have hamem : a ∈ (S : Multiset CalendarEvent) ∩ (c : Multiset CalendarEvent) := by
          rw [ha]; exact Multiset.mem_cons_self a t1
        have hbmem : b ∈ (S : Multiset CalendarEvent) ∩ (c : Multiset CalendarEvent) := by
          rw [ha, hb]
          exact Multiset.mem_cons_of_mem (Multiset.mem_cons_self b t2)
        have haS : a ∈ S := by simpa using Multiset.mem_of_le hmS hamem
        have hbS : b ∈ S := by simpa using Multiset.mem_of_le hmS hbmem
        have hac : a ∈ c := by simpa using Multiset.mem_of_le hmc hamem
        have hbc : b ∈ c := by simpa using Multiset.mem_of_le hmc hbmem
        have hov : Overlaps a b :=
          hpair.forall overlaps_symmetric haS hbS hab
        have hnov : ¬ Overlaps a b :=
          hcpair.forall not_overlaps_symmetric hac hbc hab
        exact hnov hov
    have hrle : (S : Multiset CalendarEvent) - (c : Multiset CalendarEvent) ≤
        (rest.flatten : Multiset CalendarEvent) :=
      tsub_le_iff_left.mpr hle
    obtain ⟨R, hR⟩ := Quotient.exists_rep
      ((S : Multiset CalendarEvent) - (c : Multiset CalendarEvent))
    have hRr : (R : Multiset CalendarEvent) =
        (S : Multiset CalendarEvent) - (c : Multiset CalendarEvent) := hR
    have hRsubS : R.Subperm S := by
      rw [← Multiset.coe_le, hRr]
      exact tsub_le_self
    have hRpair : R.Pairwise Overlaps := pairwise_overlaps_of_subperm hRsubS hpair
    have hRsub : R.Subperm rest.flatten := by
      rw [← Multiset.coe_le, hRr]
      exact hrle
    have hrest := ih (fun c2 hc2 => hcols c2 (List.mem_cons_of_mem c hc2)) R hRpair hRsub
    have hRlen : R.length = Multiset.card
        ((S : Multiset CalendarEvent) - (c : Multiset CalendarEvent)) := by
      rw [← hRr, Multiset.coe_card]
    simp only [List.length_cons]
    omega

/-- C2: the greedy placement never under-allocates columns — any
pairwise-simultaneously-overlapping collection of input events (a
subsequence all of whose members mutually overlap) is no larger than the
number of columns created, hence the column count is at least the true
maximum simultaneous overlap. -/
theorem layout_columns_ge_max_overlap (events S : List CalendarEvent)
    (htimed : ∀ e ∈ events, e.allDay = false)
    (hsub : S.Sublist events)
    (hpair : S.Pairwise (fun A B => A.start < B.«end» ∧ B.start < A.«end»)) :
    S.length ≤ (layoutColumns events).length := by
  have hcols := foldl_place_pairwise (sortByStart events) [] (by simp)
  have hflat : (layoutColumns events).flatten.Perm events :=
    (buildColumns_flatten_perm (sortByStart events)).trans (sortByStart_perm events)
  have hsub2 : S.Subperm (layoutColumns events).flatten :=
    (hsub.subperm).trans (hflat.symm.subperm)
  exact pairwise_overlapping_le_columns (layoutColumns events) hcols S hpair hsub2

theorem layout_columns_ge_max_overlap_witness :
    (∀ e ∈ [(⟨"1", "E1", 540, 600, false, none, none, none, none⟩ : CalendarEvent),
        ⟨"2", "E2", 570, 585, false, none, none, none, none⟩,
        ⟨"3", "E3", 585, 660, false, none, none, none, none⟩], e.allDay = false) ∧
    ([(⟨"1", "E1", 540, 600, false, none, none, none, none⟩ : CalendarEvent),
        ⟨"2", "E2", 570, 585, false, none, none, none, none⟩]).Sublist
      [(⟨"1", "E1", 540, 600, false, none, none, none, none⟩ : CalendarEvent),
        ⟨"2", "E2", 570, 585, false, none, none, none, none⟩,
        ⟨"3", "E3", 585, 660, false, none, none, none, none⟩] ∧
    ([(⟨"1", "E1", 540, 600, false, none, none, none, none⟩ : CalendarEvent),
        ⟨"2", "E2", 570, 585, false, none, none, none, none⟩]).Pairwise
      (fun A B => A.start < B.«end» ∧ B.start < A.«end») ∧
    ([(⟨"1", "E1", 540, 600, false, none, none, none, none⟩ : CalendarEvent),
        ⟨"2", "E2", 570, 585, false, none, none, none, none⟩]).length ≤
      (layoutColumns [(⟨"1", "E1", 540, 600, false, none, none, none, none⟩ : CalendarEvent),
        ⟨"2", "E2", 570, 585, false, none, none, none, none⟩,
        ⟨"3", "E3", 585, 660, false, none, none, none, none⟩]).length :=
  ⟨by decide, by decide, by decide,
    layout_columns_ge_max_overlap _ _ (by decide) (by decide) (by decide)⟩

/-- C9 counterexample: the column assignment is not invariant under
reordering the same multiset of events.  Events `a = [0, 10)` and
`b = [0, 5)` share a start time; the stable sort keeps the input order,
so `a` is placed in column 0 when listed first and in column 1 when
listed second, although the two inputs are permutations of each other. -/
theorem column_assignment_order_dependent_counterexample :
    ((getEventsForSchedule
        [⟨"a", "A", 0, 10, false, none, none, none, none⟩,
          ⟨"b", "B", 0, 5, false, none, none, none, none⟩]).map
      (fun p => (p.id, p.column)) = [("a", 0), ("b", 1)]) ∧
    ((getEventsForSchedule
        [⟨"b", "B", 0, 5, false, none, none, none, none⟩,
          ⟨"a", "A", 0, 10, false, none, none, none, none⟩]).map
      (fun p => (p.id, p.column)) = [("b", 0), ("a", 1)]) ∧
    ([⟨"a", "A", 0, 10, false, none, none, none, none⟩,
        ⟨"b", "B", 0, 5, false, none, none, none, none⟩] : List CalendarEvent).Perm
      [⟨"b", "B", 0, 5, false, none, none, none, none⟩,
        ⟨"a", "A", 0, 10, false, none, none, none, none⟩] := by
  decide

instance : IsTotal CalendarEvent (fun a b => a.start ≤ b.start) :=
  ⟨fun a b => Int.le_total a.start b.start⟩

instance : IsTrans CalendarEvent (fun a b => a.start ≤ b.start) :=
  ⟨fun _ _ _ hab hbc => le_trans hab hbc⟩

theorem sortByStart_sorted (l : List CalendarEvent) :
    (sortByStart l).Pairwise (fun a b => a.start ≤ b.start) :=
  List.sorted_insertionSort _ l

/-- Two sorted permutations of each other with pairwise-distinct start
keys are equal. -/
theorem sorted_perm_eq_of_nodup_starts :
    ∀ l1 l2 : List CalendarEvent,
      l1.Pairwise (fun a b => a.start ≤ b.start) →
      l2.Pairwise (fun a b => a.start ≤ b.start) →
      l1.Perm l2 → (l1.map (fun e => e.start)).Nodup → l1 = l2 := by
  intro l1
  induction l1 with
  | nil =>
    intro l2 _ _ hperm _
    exact (List.perm_nil.mp hperm.symm).symm
  | cons a t1 ih =>
    intro l2 hp1 hp2 hperm hnodup
    cases l2 with
    | nil => exact absurd (List.perm_nil.mp hperm) (List.cons_ne_nil a t1)
    | cons b t2 =>
      by_cases hab : b = a
      · subst hab
        have hnodup2 : (t1.map (fun e => e.start)).Nodup := by
          rw [List.map_cons] at hnodup
          exact (List.nodup_cons.mp hnodup).2
        have heq : t1 = t2 := ih t2 (List.pairwise_cons.mp hp1).2
          (List.pairwise_cons.mp hp2).2 hperm.cons_inv hnodup2
        rw [heq]
      · have hbmem : b ∈ a :: t1 := hperm.mem_iff.mpr (List.mem_cons_self b t2)
        have hamem : a ∈ b :: t2 := hperm.mem_iff.mp (List.mem_cons_self a t1)
        have hbt1 : b ∈ t1 := by
          rcases List.mem_cons.mp hbmem with h | h
          · exact absurd h hab
          · exact h
        have hat2 : a ∈ t2 := by
          rcases List.mem_cons.mp hamem with h | h
          · exact absurd h.symm hab
          · exact h
        have h1 : a.start ≤ b.start := (List.pairwise_cons.mp hp1).1 b hbt1
        have h2 : b.start ≤ a.start := (List.pairwise_cons.mp hp2).1 a hat2
        have heq : a = b := List.inj_on_of_nodup_map hnodup (List.mem_cons_self a t1)
          (List.mem_cons_of_mem a hbt1) (le_antisymm h1 h2)
        exact absurd heq.symm hab

/-- C9 amended: the column assignment is a pure function of its input
sequence (running it twice on the same sequence trivially yields the same
output), and it is invariant under reordering the same multiset of events
whenever all start times are pairwise distinct — the stable sort then has
no ties left to input order, so both orderings sort to the same sequence
and every event receives the same column and totalColumns. -/
theorem column_assignment_perm_invariant_distinct_starts (l1 l2 : List CalendarEvent)
    (hperm : l1.Perm l2) (hnodup : (l1.map (fun e => e.start)).Nodup) :
    getEventsForSchedule l1 = getEventsForSchedule l2 := by
  have hsortnodup : ((sortByStart l1).map (fun e => e.start)).Nodup :=
    (((sortByStart_perm l1).map (fun e => e.start)).nodup_iff).mpr hnodup
  have hsorteq : sortByStart l1 = sortByStart l2 :=
    sorted_perm_eq_of_nodup_starts (sortByStart l1) (sortByStart l2)
      (sortByStart_sorted l1) (sortByStart_sorted l2)
      ((sortByStart_perm l1).trans (hperm.trans (sortByStart_perm l2).symm))
      hsortnodup
  unfold getEventsForSchedule
  rw [hsorteq]

theorem column_assignment_perm_invariant_distinct_starts_witness :
    ([⟨"a", "A", 0, 10, false, none, none, none, none⟩,
        ⟨"b", "B", 30, 45, false, none, none, none, none⟩] : List CalendarEvent).Perm
      [⟨"b", "B", 30, 45, false, none, none, none, none⟩,
        ⟨"a", "A", 0, 10, false, none, none, none, none⟩] ∧
    (([⟨"a", "A", 0, 10, false, none, none, none, none⟩,
        ⟨"b", "B", 30, 45, false, none, none, none, none⟩] : List CalendarEvent).map
      (fun e => e.start)).Nodup ∧
    getEventsForSchedule
        [⟨"a", "A", 0, 10, false, none, none, none, none⟩,
          ⟨"b", "B", 30, 45, false, none, none, none, none⟩] =
      getEventsForSchedule
        [⟨"b", "B", 30, 45, false, none, none, none, none⟩,
          ⟨"a", "A", 0, 10, false, none, none, none, none⟩] :=
  ⟨by decide, by decide,
    column_assignment_perm_invariant_distinct_starts _ _ (by decide) (by decide)⟩

/-- Blocker invariant of the greedy placement: every event sitting in a
later column overlaps some member of each earlier column (the scan only
moved it right past columns that rejected it, and columns only grow). -/
def BlockersInv : List (List CalendarEvent) → Prop
  | [] => True
  | c :: rest => (∀ e ∈ rest.flatten, ∃ b ∈ c, hasOverlap e b = true) ∧ BlockersInv rest

theorem placeEvent_mem_flatten {e ev : CalendarEvent} {cols : List (List CalendarEvent)}
    (h : e ∈ (placeEvent ev cols).flatten) : e ∈ cols.flatten ∨ e = ev := by
  have hperm := placeEvent_flatten_perm ev cols
  rcases List.mem_append.mp (hperm.subset h) with h2 | h2
  · exact Or.inl h2
  · exact Or.inr (List.mem_singleton.mp h2)

theorem placeEvent_blockersInv (ev : CalendarEvent) (cols : List (List CalendarEvent))
    (h : BlockersInv cols) : BlockersInv (placeEvent ev cols) := by
  induction cols with
  | nil => simp [placeEvent, BlockersInv]
  | cons c rest ih =>
    cases hany : c.any (fun existing => hasOverlap ev existing) with
    | true =>
      simp only [placeEvent, hany, if_true]
      refine ⟨?_, ih h.2⟩
      intro e he
      rcases placeEvent_mem_flatten he with h2 | h2
      · exact h.1 e h2
      · subst h2
        obtain ⟨b, hb, hov⟩ := List.any_eq_true.mp hany
        exact ⟨b, hb, hov⟩
    | false =>
      simp only [placeEvent, hany, Bool.false_eq_true, if_false]
      refine ⟨?_, h.2⟩
      intro e he
      obtain ⟨b, hb, hov⟩ := h.1 e he
      exact ⟨b, List.mem_append_left _ hb, hov⟩

theorem foldl_place_blockersInv (l : List CalendarEvent) (cols : List (List CalendarEvent))
    (h : BlockersInv cols) :
    BlockersInv (l.foldl (fun cs ev => placeEvent ev cs) cols) := by
  induction l generalizing cols with
  | nil => exact h
  | cons e t ih => exact ih (placeEvent e cols) (placeEvent_blockersInv e cols h)

theorem buildColumns_blockersInv (l : List CalendarEvent) : BlockersInv (buildColumns l) :=
  foldl_place_blockersInv l [] trivial

theorem getD_mem_flatten :
    ∀ (cols : List (List CalendarEvent)) (i : Nat) (e : CalendarEvent),
      e ∈ cols.getD i [] → e ∈ cols.flatten := by
  intro cols
  induction cols with
  | nil =>
    intro i e he
    rw [List.getD_nil] at he
    exact absurd he (List.not_mem_nil e)
  | cons c rest ih =>
    intro i e he
    cases i with
    | zero =>
      rw [List.getD_cons_zero] at he
      exact List.mem_flatten.mpr ⟨c, List.mem_cons_self c rest, he⟩
    | succ i2 =>
      rw [List.getD_cons_succ] at he
      rw [List.flatten_cons]
      exact List.mem_append_right c (ih i2 e he)

/-- Extraction of the blocker invariant by column index: an event found in
the column at index `i` overlaps a member of every column at index
`j < i`. -/
theorem blockersInv_blockers :
    ∀ (cols : List (List CalendarEvent)), BlockersInv cols →
      ∀ i, ∀ e ∈ cols.getD i [], ∀ j, j < i →
        ∃ b ∈ cols.getD j [], hasOverlap e b = true := by
  intro cols
  induction cols with
  | nil =>
    intro _ i e he
    rw [List.getD_nil] at he
    exact absurd he (List.not_mem_nil e)
  | cons c rest ih =>
    intro hinv i e he j hj
    cases i with
    | zero => exact absurd hj (Nat.not_lt_zero j)
    | succ i2 =>
      rw [List.getD_cons_succ] at he
      cases j with
      | zero =>
        rw [List.getD_cons_zero]
        exact hinv.1 e (getD_mem_flatten rest i2 e he)
      | succ j2 =>
        rw [List.getD_cons_succ]
        exact ih hinv.2 i2 e he j2 (by omega)

/-- If the columns at all indices below `i` satisfy a predicate, the
predicate count over the whole column list is at least `i`. -/
theorem count_ge_of_blockers (p : List CalendarEvent → Bool) :
    ∀ (cols : List (List CalendarEvent)) (i : Nat), i ≤ cols.length →
      (∀ j, j < i → p (cols.getD j []) = true) → i ≤ List.countP p cols := by
  intro cols
  induction cols with
  | nil =>
    intro i hi _
    simpa using hi
  | cons c rest ih =>
    intro i hi hall
    cases i with
    | zero => exact Nat.zero_le _
    | succ i2 =>
      have hc : p c = true := by
        have h0 := hall 0 (Nat.succ_pos i2)
        rwa [List.getD_cons_zero] at h0
      have hrest : i2 ≤ List.countP p rest := by
        apply ih
        · simp only [List.length_cons] at hi
          omega
        · intro j hj
          have hj1 := hall (j + 1) (by omega)
          rwa [List.getD_cons_succ] at hj1
      rw [List.countP_cons, hc]
      simp only [if_true]
      omega

/-- When the ids across all placed events are pairwise distinct, events
found in different columns carry different ids. -/
theorem ids_distinct_across_columns :
    ∀ (cols : List (List CalendarEvent)),
      (cols.flatten.map (fun e => e.id)).Nodup →
      ∀ i j, i ≠ j → ∀ a ∈ cols.getD i [], ∀ b ∈ cols.getD j [], a.id ≠ b.id := by
  intro cols
  induction cols with
  | nil =>
    intro _ i j _ a ha
    rw [List.getD_nil] at ha
    exact absurd ha (List.not_mem_nil a)
  | cons c rest ih =>
    intro hnodup i j hij a ha b hb
    rw [List.flatten_cons, List.map_append] at hnodup
    have hsplit := List.nodup_append.mp hnodup
    cases i with
    | zero =>
      rw [List.getD_cons_zero] at ha
      cases j with
      | zero => exact absurd rfl hij
      | succ j2 =>
        rw [List.getD_cons_succ] at hb
        intro heq
        have h1 : a.id ∈ c.map (fun e => e.id) := List.mem_map_of_mem _ ha
        have h2 : b.id ∈ (rest.flatten).map (fun e => e.id) :=
          List.mem_map_of_mem _ (getD_mem_flatten rest j2 b hb)
        rw [← heq] at h2
        exact hsplit.2.2 h1 h2
    | succ i2 =>
      rw [List.getD_cons_succ] at ha
      cases j with
      | zero =>
        rw [List.getD_cons_zero] at hb
        intro heq
        have h1 : b.id ∈ c.map (fun e => e.id) := List.mem_map_of_mem _ hb
        have h2 : a.id ∈ (rest.flatten).map (fun e => e.id) :=
          List.mem_map_of_mem _ (getD_mem_flatten rest i2 a ha)
        rw [heq] at h2
        exact hsplit.2.2 h1 h2
      | succ j2 =>
        rw [List.getD_cons_succ] at hb
        exact ih hsplit.2.1 i2 j2 (by omega) a ha b hb

/-- `findIndex` characterisation: when the event occurs in the column at
index `i` and in no earlier column, `columnIndexOf` returns `i`. -/
theorem columnIndexOf_eq :
    ∀ (cols : List (List CalendarEvent)) (ev : CalendarEvent) (i : Nat),
      ev ∈ cols.getD i [] → (∀ j, j < i → ev ∉ cols.getD j []) →
      columnIndexOf ev cols = (i : Int) := by
  intro cols
  induction cols with
  | nil =>
    intro ev i hmem _
    rw [List.getD_nil] at hmem
    exact absurd hmem (List.not_mem_nil ev)
  | cons c rest ih =>
    intro ev i hmem hnot
    cases i with
    | zero =>
      rw [List.getD_cons_zero] at hmem
      have hc : c.contains ev = true := List.elem_iff.mpr hmem
      show (if c.contains ev = true then (0 : Int) else
        (let r := columnIndexOf ev rest; if r = -1 then -1 else r + 1)) = ((0 : Nat) : Int)
      rw [if_pos hc]
      simp
    | succ i2 =>
      rw [List.getD_cons_succ] at hmem
      have h0 := hnot 0 (Nat.succ_pos i2)
      rw [List.getD_cons_zero] at h0
      have hc : c.contains ev = false := by
        cases hcc : c.contains ev with
        | false => rfl
        | true => exact absurd (List.elem_iff.mp hcc) h0
      have hrec : columnIndexOf ev rest = (i2 : Int) := by
        apply ih ev i2 hmem
        intro j hj
        have hj1 := hnot (j + 1) (by omega)
        rwa [List.getD_cons_succ] at hj1
      simp only [columnIndexOf, hc, Bool.false_eq_true, if_false]
      rw [hrec]
      have hne : ((i2 : Nat) : Int) ≠ -1 := by omega
      rw [if_neg hne]
      omega

/-- Every placed event has a first column containing it. -/
theorem exists_min_column :
    ∀ (cols : List (List CalendarEvent)) (e : CalendarEvent), e ∈ cols.flatten →
      ∃ i, i < cols.length ∧ e ∈ cols.getD i [] ∧ ∀ j, j < i → e ∉ cols.getD j [] := by
  intro cols
  induction cols with
  | nil =>
    intro e he
    rw [List.flatten_nil] at he
    exact absurd he (List.not_mem_nil e)
  | cons c rest ih =>
    intro e he
    by_cases hc : e ∈ c
    · refine ⟨0, Nat.succ_pos _, by rwa [List.getD_cons_zero], ?_⟩
      intro j hj
      exact absurd hj (Nat.not_lt_zero j)
    · have hrest : e ∈ rest.flatten := by
        rw [List.flatten_cons] at he
        rcases List.mem_append.mp he with h | h
        · exact absurd h hc
        · exact h
      obtain ⟨i, hilen, hmem, hnot⟩ := ih e hrest
      refine ⟨i + 1, Nat.succ_lt_succ hilen, by rwa [List.getD_cons_succ], ?_⟩
      intro j hj
      cases j with
      | zero => rwa [List.getD_cons_zero]
      | succ j2 =>
        rw [List.getD_cons_succ]
        exact hnot j2 (by omega)

/-- C10: for timed inputs with `end >= start` and pairwise-distinct ids,
every produced `PositionedEvent` satisfies `column < totalColumns`: an
event placed in column `c` was rejected by (and hence overlaps a distinct
event in) each of the `c` earlier columns, so `overlappingColumns ≥ c`
and the width divisor `overlappingColumns + 1` strictly exceeds the
column index. -/
theorem column_lt_totalColumns (events : List CalendarEvent)
    (htimed : ∀ e ∈ events, e.allDay = false)
    (hwf : ∀ e ∈ events, e.start ≤ e.«end»)
    (hids : (events.map (fun e => e.id)).Nodup) :
    ∀ p ∈ getEventsForSchedule events, p.column < (p.totalColumns : Int) := by
  intro p hp
  have hp2 : p ∈ (sortByStart events).map
      (fun ev => positionEvent (buildColumns (sortByStart events)) ev) := hp
  obtain ⟨e, he, hpe⟩ := List.mem_map.mp hp2
  have hperm : (buildColumns (sortByStart events)).flatten.Perm events :=
    (buildColumns_flatten_perm _).trans (sortByStart_perm events)
  have hflatids : ((buildColumns (sortByStart events)).flatten.map
      (fun e => e.id)).Nodup :=
    ((hperm.map (fun e => e.id)).nodup_iff).mpr hids
  have hef : e ∈ (buildColumns (sortByStart events)).flatten :=
    hperm.symm.subset ((sortByStart_perm events).subset he)
  obtain ⟨i, hilen, hmem, hnot⟩ := exists_min_column _ e hef
  have hidx : columnIndexOf e (buildColumns (sortByStart events)) = (i : Int) :=
    columnIndexOf_eq _ e i hmem hnot
  have hblock := blockersInv_blockers _ (buildColumns_blockersInv (sortByStart events))
    i e hmem
  have hcount : i ≤ overlappingColumns (buildColumns (sortByStart events)) e := by
    unfold overlappingColumns
    apply count_ge_of_blockers _ _ i (le_of_lt hilen)
    intro j hj
    obtain ⟨b, hb, hov⟩ := hblock j hj
    have hid : e.id ≠ b.id :=
      ids_distinct_across_columns _ hflatids i j (by omega) e hmem b hb
    apply List.any_eq_true.mpr
    refine ⟨b, hb, ?_⟩
    rw [overlapsOther_eq_hasOverlap (Ne.symm hid)]
    exact hov
  rw [← hpe]
  show (if overlappingColumns (buildColumns (sortByStart events)) e > 0
      then columnIndexOf e (buildColumns (sortByStart events)) else 0) <
    ((if overlappingColumns (buildColumns (sortByStart events)) e > 0
      then overlappingColumns (buildColumns (sortByStart events)) e + 1 else 1 : Nat) : Int)
  by_cases hzero : overlappingColumns (buildColumns (sortByStart events)) e > 0
  · rw [if_pos hzero, if_pos hzero, hidx]
    omega
  · rw [if_neg hzero, if_neg hzero]
    omega

theorem column_lt_totalColumns_witness :
    (∀ e ∈ [(⟨"1", "E1", 540, 600, false, none, none, none, none⟩ : CalendarEvent),
        ⟨"2", "E2", 570, 585, false, none, none, none, none⟩,
        ⟨"3", "E3", 585, 660, false, none, none, none, none⟩], e.allDay = false) ∧
    (∀ e ∈ [(⟨"1", "E1", 540, 600, false, none, none, none, none⟩ : CalendarEvent),
        ⟨"2", "E2", 570, 585, false, none, none, none, none⟩,
        ⟨"3", "E3", 585, 660, false, none, none, none, none⟩], e.start ≤ e.«end») ∧
    (([(⟨"1", "E1", 540, 600, false, none, none, none, none⟩ : CalendarEvent),
        ⟨"2", "E2", 570, 585, false, none, none, none, none⟩,
        ⟨"3", "E3", 585, 660, false, none, none, none, none⟩]).map
      (fun e => e.id)).Nodup ∧
    ∀ p ∈ getEventsForSchedule
        [(⟨"1", "E1", 540, 600, false, none, none, none, none⟩ : CalendarEvent),
          ⟨"2", "E2", 570, 585, false, none, none, none, none⟩,
          ⟨"3", "E3", 585, 660, false, none, none, none, none⟩],
      p.column < (p.totalColumns : Int) :=
  ⟨by decide, by decide, by decide,
    column_lt_totalColumns _ (by decide) (by decide) (by decide)⟩
